import Mathlib

/-!
Verification of the MeDeCom `HCLasso` kernel (src/src/HCLasso.cpp).

The kernel solves, for each column w of W, the box-constrained L1-regularized
quadratic program  min { aᵗGa − 2wᵗa + λ‖a‖₁ : a ∈ [0,1]^k }  by a spectral
projected gradient (SPG) method with a non-monotone backtracking line search.

Shallow embedding conventions:
* IEEE doubles are idealized as exact rationals `ℚ` inside the solver loop.
  In every state the loop can actually reach, the rational model and the IEEE
  model take the same branches (the one float-specific subtlety, a NaN
  produced by `0/0` in the step-length estimator, is modelled separately and
  exactly with the `EDouble` type below).
* Vectors of length k are `Fin k → ℚ`, matrices are `Fin k → Fin k → ℚ`
  (the C code is column-major; the mathematical view is layout-free).
* The two `while (1)` loops are embedded with explicit fuel.  The inner
  backtracking loop computes its own provably sufficient fuel
  (`lsFuelFor`), so only the outer SPG loop carries a fuel parameter and
  returns `Option`; totality with fuel 502 is proved.
-/

namespace MeDeCom

abbrev Vec (k : ℕ) := Fin k → ℚ

abbrev Mat (k : ℕ) := Fin k → Fin k → ℚ

/-- `#define OPT_TOL 1e-10` (convergence accuracy). -/
def OPT_TOL : ℚ := 1 / 10 ^ 10

/-- `#define SUFF_DESC 1e-3` (sufficient-descent constant of the line search). -/
def SUFF_DESC : ℚ := 1 / 10 ^ 3

/-- `#define MEM_OLD_VALUES 10` (window size of the non-monotone line search). -/
def MEM_OLD_VALUES : ℕ := 10

/-- BLAS `ddot`: dot product of two vectors. -/
def ddot {k : ℕ} (x y : Vec k) : ℚ := ∑ i, x i * y i

/-- BLAS `dgemv` with `trans = "N"`, `alpha = 1`, `beta = 0`: matrix-vector product. -/
def dgemv {k : ℕ} (M : Mat k) (x : Vec k) : Vec k := fun i => ∑ j, M i j * x j

/-- BLAS `dasum`: sum of absolute values of the coordinates. -/
def dasum {k : ℕ} (x : Vec k) : ℚ := ∑ i, |x i|

/-- `SetInput`, first output: `beta[i] = 2 * w[i] - lambda`. -/
def SetInputBeta {k : ℕ} (w : Vec k) (lambda : ℚ) : Vec k := fun i => 2 * w i - lambda

/-- `SetInput`, second output: `Hess = 2 * G` (written as `dcopy` then `daxpy` in the source). -/
def SetInputHess {k : ℕ} (G : Mat k) : Mat k := fun i j => G i j + G i j

/-- `GetGrad`: `grad = Hess * x - beta`. -/
def GetGrad {k : ℕ} (Hess : Mat k) (beta x : Vec k) : Vec k :=
  fun i => dgemv Hess x i - beta i

/-- `ObjValue`: `f = x' * (G * x - beta)`. -/
def ObjValue {k : ℕ} (G : Mat k) (beta x : Vec k) : ℚ :=
  ddot x (fun i => dgemv G x i - beta i)

/-- `ProjHyperCube`: coordinatewise clamp into `[0,1]`. -/
def ProjHyperCube {k : ℕ} (x : Vec k) : Vec k :=
  fun i => if x i < 0 then 0 else if x i > 1 then 1 else x i

/-- `GetProjStep`: `d = ProjHyperCube(x - alpha * g) - x`. -/
def GetProjStep {k : ℕ} (x g : Vec k) (alpha : ℚ) : Vec k :=
  fun i => ProjHyperCube (fun j => x j - alpha * g j) i - x i

/-- `GetDirectDerivative`: `g' * d`. -/
def GetDirectDerivative {k : ℕ} (g d : Vec k) : ℚ := ddot g d

/-- `NormOne`: `‖x‖₁`. -/
def NormOne {k : ℕ} (x : Vec k) : ℚ := dasum x

/-- `GetAlpha`: the Barzilai–Borwein ratio
`(x - x_old)·(x - x_old) / ((x - x_old)·(g - g_old))`, idealized over `ℚ`
(Lean's `q / 0 = 0`; the IEEE-exact version of the quotient is `GetAlphaE`). -/
def GetAlpha {k : ℕ} (x x_old g g_old : Vec k) : ℚ :=
  ddot (fun i => x i - x_old i) (fun i => x i - x_old i) /
    ddot (fun i => x i - x_old i) (fun i => g i - g_old i)

/-- Safeguard of HCLasso lines 319-321 over `ℚ`:
`if (alpha <= 1e-10 || alpha > 1e10) alpha = 1`. -/
def safeguardAlphaQ (a : ℚ) : ℚ :=
  if a ≤ 1 / 10 ^ 10 ∨ 10 ^ 10 < a then 1 else a

/-!  IEEE-exact model of the step-length computation (for claim C3).

`EDouble` is a double that is either a finite (exact) value, `+∞`, `-∞`, or
NaN.  Comparisons involving NaN are false, as in IEEE 754. -/

inductive EDouble where
  | fin : ℚ → EDouble
  | pinf : EDouble
  | ninf : EDouble
  | nan : EDouble
deriving DecidableEq

/-- IEEE `≤` on extended doubles: any comparison with NaN is false. -/
def ele : EDouble → EDouble → Bool
  | .nan, _ => false
  | _, .nan => false
  | .ninf, _ => true
  | _, .pinf => true
  | .pinf, _ => false
  | .fin _, .ninf => false
  | .fin a, .fin b => decide (a ≤ b)

/-- IEEE `<` on extended doubles: any comparison with NaN is false. -/
def elt : EDouble → EDouble → Bool
  | .nan, _ => false
  | _, .nan => false
  | .ninf, .ninf => false
  | .ninf, _ => true
  | _, .ninf => false
  | .pinf, _ => false
  | .fin _, .pinf => true
  | .fin a, .fin b => decide (a < b)

/-- IEEE division for the operands `GetAlpha` can produce: both operands finite.
A zero divisor gives a signed infinity by the sign of the numerator (the C
expression produces `+0.0` as divisor in the degenerate case; with a `-0.0`
divisor the infinities would be swapped, which the safeguard treats
identically), and `0/0` gives NaN. -/
def ediv : EDouble → EDouble → EDouble
  | .fin a, .fin b =>
      if b ≠ 0 then .fin (a / b)
      else if 0 < a then .pinf
      else if a < 0 then .ninf
      else .nan
  | _, _ => .nan

/-- `GetAlpha` with the IEEE-exact quotient. -/
def GetAlphaE {k : ℕ} (x x_old g g_old : Vec k) : EDouble :=
  ediv
    (.fin (ddot (fun i => x i - x_old i) (fun i => x i - x_old i)))
    (.fin (ddot (fun i => x i - x_old i) (fun i => g i - g_old i)))

/-- Safeguard of HCLasso lines 319-321 with IEEE comparison semantics:
`if (alpha <= 1e-10 || alpha > 1e10) alpha = 1`. -/
def safeguardAlphaE (a : EDouble) : EDouble :=
  if (ele a (.fin (1 / 10 ^ 10)) || elt (.fin (10 ^ 10)) a) then .fin 1 else a

/-- Lines 315-322: `alpha = 1` on the first iteration, otherwise the
safeguarded BB ratio. -/
def computeAlphaE {k : ℕ} (iter : ℕ) (x x_old g g_old : Vec k) : EDouble :=
  if iter = 0 then .fin 1 else safeguardAlphaE (GetAlphaE x x_old g g_old)

/-! The non-monotone backtracking line search (HCLasso lines 377-408). -/

/-- Result of the backtracking loop: the accepted step size `t`, the accepted
`‖dx‖₁` and the analytic objective change `red_f` (all three are `0` when the
search aborts because the step became too small). -/
structure LSResult where
  t : ℚ
  norm1dx : ℚ
  redf : ℚ
deriving DecidableEq

/-- One-to-one embedding of the `while (1)` backtracking loop, lines 379-408:
`L = t * gtd` and `Q = (d' * Hess * d) * t * t` are the precomputed `Linear`
and `Quad`, `N` is `Norm1_dx = t * ‖d‖₁`, and `factor` starts at 1.  The
loop body never re-evaluates the objective (`ObjValue` is not consulted).
The `fuel` argument only bounds the recursion; `lineSearch` below always
supplies provably sufficient fuel. -/
def lineSearchAux (f fref L Q N t : ℚ) : ℕ → ℚ → Option LSResult
  | 0, _ => none
  | fuel + 1, factor =>
      let linear := L * factor
      let quad := Q * factor * factor
      let red_f := 1 / 2 * quad + linear
      let f_tmp := f + red_f
      if f_tmp < fref + SUFF_DESC * linear then
        some ⟨t * factor, N * factor, red_f⟩
      else
        let factor' := factor * (1 / 2)
        if N * factor' < OPT_TOL ∨ t = 0 then
          some ⟨0, 0, 0⟩
        else
          lineSearchAux f fref L Q N t fuel factor'

/-- Fuel that provably suffices for `lineSearchAux` (the abort test
`Norm1_dx * factor < optTol` fires once `factor` has been halved enough:
`N ≤ |N.num|` and `|N.num| * 10^10 < 2 ^ (log2 + 1)`). -/
def lsFuelFor (N : ℚ) : ℕ := (N.num.natAbs * 10 ^ 10).log2 + 3

/-- The backtracking loop as a total function.  The default `⟨0,0,0⟩` is never
used: `lineSearchAux_total` below shows the fuel `lsFuelFor N` always yields
`some`, and `⟨0,0,0⟩` coincides with the loop's own abort result. -/
def lineSearch (f fref L Q N t : ℚ) : LSResult :=
  (lineSearchAux f fref L Q N t (lsFuelFor N) 1).getD ⟨0, 0, 0⟩

/-! The SPG loop (HCLasso lines 268-472). -/

/-- Solver state at the top of the `while (1)` loop of `HCLasso`.  `fmin` is
the best objective value so far (the cell `fhat[0]` of the C code is kept
equal to `fmin` at all times, so it is not duplicated here).  `oldFvals`
holds the recorded objective values of the non-monotone window; the C code
realizes it as a 10-slot array initialized to `-DBL_MAX` (a sentinel meaning
"no value recorded yet"), which is modelled by a list of the actually
recorded values. -/
structure SpgState (k : ℕ) where
  x : Vec k
  x_old : Vec k
  g : Vec k
  g_old : Vec k
  f : ℚ
  fmin : ℚ
  ahat : Vec k
  oldFvals : List ℚ
  iter : ℕ

/-- Lines 348-355: record `f` in the window (slot `iter` while `iter < 10`,
else shift and append). -/
def updateOldFvals (old : List ℚ) (f : ℚ) : List ℚ :=
  if old.length < MEM_OLD_VALUES then old ++ [f] else old.tail ++ [f]

/-- Lines 358-362: `f_ref = max(old_fvals)` (maximum of the recorded values;
the `-DBL_MAX` sentinel slots of the C array never win the maximum). -/
def maxOldFvals : List ℚ → ℚ
  | [] => 0
  | a :: l => l.foldl max a

/-- Lines 315-322 over `ℚ`: the BB step length with its safeguard. -/
def spgAlpha {k : ℕ} (s : SpgState k) : ℚ :=
  if s.iter = 0 then 1 else safeguardAlphaQ (GetAlpha s.x s.x_old s.g s.g_old)

/-- Line 325: the projected step direction. -/
def spgD {k : ℕ} (s : SpgState k) : Vec k := GetProjStep s.x s.g (spgAlpha s)

/-- Line 329: the directional derivative `g' * d`. -/
def spgGtd {k : ℕ} (s : SpgState k) : ℚ := GetDirectDerivative s.g (spgD s)

/-- Lines 338-344: initial trial step length, `min(1, 1/‖g‖₁)` on the very
first iteration and `1` afterwards. -/
def spgT0 {k : ℕ} (s : SpgState k) : ℚ :=
  if s.iter = 0 then
    let t := 1 / NormOne s.g
    if t > 1 then 1 else t
  else 1

/-- The non-monotone reference value: maximum of the freshly updated window. -/
def spgFref {k : ℕ} (s : SpgState k) : ℚ :=
  maxOldFvals (updateOldFvals s.oldFvals s.f)

/-- The line-search call of one SPG iteration with the arguments of lines
367-377: `Linear = t * gtd`, `Quad = (d' * Hess * d) * t * t`,
`Norm1_dx = t * ‖d‖₁`. -/
def spgLS {k : ℕ} (Hess : Mat k) (s : SpgState k) : LSResult :=
  lineSearch s.f (spgFref s)
    (spgT0 s * spgGtd s)
    (ddot (spgD s) (dgemv Hess (spgD s)) * spgT0 s * spgT0 s)
    (spgT0 s * NormOne (spgD s))
    (spgT0 s)

/-- Lines 410-444: take the step `x ← x + t·d`, recompute the gradient,
update `f ← f + red_f`, the iteration counter, and the best-so-far pair. -/
def spgNext {k : ℕ} (Hess : Mat k) (beta : Vec k) (s : SpgState k) (r : LSResult) :
    SpgState k :=
  let x' := fun i => s.x i + r.t * spgD s i
  let g' := GetGrad Hess beta x'
  let f' := s.f + r.redf
  { x := x'
    x_old := s.x
    g := g'
    g_old := s.g
    f := f'
    fmin := if f' < s.fmin then f' else s.fmin
    ahat := if f' < s.fmin then x' else s.ahat
    oldFvals := updateOldFvals s.oldFvals s.f
    iter := s.iter + 1 }

/-- Lines 446-451: the first-order optimality residual
`ProjHyperCube(x - g) - x`. -/
def firstOrderRes {k : ℕ} (x g : Vec k) : Vec k :=
  fun i => ProjHyperCube (fun j => x j - g j) i - x i

/-- Lines 446-471: the four stopping conditions checked at the bottom of the
loop (first-order residual, accepted step size, objective change, hard
iteration cap 500).  Each fires a `break`; the resulting terminal state is
the same whichever fires first. -/
def spgDone {k : ℕ} (s' : SpgState k) (norm1dx redf : ℚ) : Bool :=
  decide (NormOne (firstOrderRes s'.x s'.g) < OPT_TOL) ||
    decide (norm1dx < OPT_TOL) || decide (|redf| < OPT_TOL) ||
    decide (s'.iter > 500)

/-- Outcome of one pass through the `while (1)` body: either a `break`
(terminal state) or another iteration. -/
inductive StepResult (k : ℕ) where
  | done : SpgState k → StepResult k
  | cont : SpgState k → StepResult k

/-- The state carried by a `StepResult`. -/
def StepResult.state {k : ℕ} : StepResult k → SpgState k
  | .done s => s
  | .cont s => s

/-- Whether the pass ended in a `break`. -/
def StepResult.isDone {k : ℕ} : StepResult k → Bool
  | .done _ => true
  | .cont _ => false

/-- One pass through the body of the `while (1)` loop of `HCLasso`
(lines 312-472). -/
def spgStep {k : ℕ} (Hess : Mat k) (beta : Vec k) (s : SpgState k) : StepResult k :=
  if spgGtd s > -OPT_TOL then .done s
  else
    let r := spgLS Hess s
    let s' := spgNext Hess beta s r
    if spgDone s' r.norm1dx r.redf then .done s' else .cont s'

/-- The `while (1)` loop, with explicit fuel (the hard iteration cap `iter >
500` makes fuel 502 provably sufficient, see `solver_terminates`). -/
def spgLoop {k : ℕ} (Hess : Mat k) (beta : Vec k) : ℕ → SpgState k → Option (SpgState k)
  | 0, _ => none
  | fuel + 1, s =>
      match spgStep Hess beta s with
      | .done s' => some s'
      | .cont s' => spgLoop Hess beta fuel s'

/-- Lines 274-297: the initial state of one solve.  `x_old` and `g_old` are
uninitialized scratch in the C code and are never read before being written
(iteration 0 uses `alpha = 1`); they are seeded with `x` and `g` here. -/
def spgInit {k : ℕ} (G : Mat k) (w a0 : Vec k) (lambda : ℚ) : SpgState k :=
  let beta := SetInputBeta w lambda
  let Hess := SetInputHess G
  let g := GetGrad Hess beta a0
  let f := ObjValue G beta a0
  { x := a0, x_old := a0, g := g, g_old := g, f := f, fmin := f, ahat := a0,
    oldFvals := [], iter := 0 }

/-- `HCLasso`: one subproblem solve, returning the best-so-far iterate `ahat`
and its objective value `fhat`. -/
def HCLasso {k : ℕ} (G : Mat k) (w a0 : Vec k) (lambda : ℚ) (fuel : ℕ) :
    Option (Vec k × ℚ) :=
  (spgLoop (SetInputHess G) (SetInputBeta w lambda) fuel (spgInit G w a0 lambda)).map
    fun s => (s.ahat, s.fmin)

/-- The `for (j = 0; j < d; j++)` loop of `spawn_threads` (lines 500-513,
executed with the single worker `MAX_NUM_THREADS = 1`): solve column `j`,
write its `ahat` into column `j` of `Anew`, and accumulate `loss`. -/
def spawnLoop {k d : ℕ} (G : Mat k) (W A : Fin d → Vec k) (lambda : ℚ) (fuel : ℕ) :
    List (Fin d) → ℚ → (Fin d → Vec k) → Option ((Fin d → Vec k) × ℚ)
  | [], loss, Anew => some (Anew, loss)
  | j :: rest, loss, Anew =>
      match HCLasso G (W j) (A j) lambda fuel with
      | none => none
      | some (ahat, fhat) =>
          spawnLoop G W A lambda fuel rest (loss + fhat) (Function.update Anew j ahat)

/-- `spawn_threads`: the batch driver.  The output buffer `Anew` handed in by
the caller is zero-initialized (R allocates it with `NumericMatrix(k,d)`). -/
def spawn_threads {k : ℕ} (d : ℕ) (G : Mat k) (W A : Fin d → Vec k) (lambda : ℚ)
    (fuel : ℕ) : Option ((Fin d → Vec k) × ℚ) :=
  spawnLoop G W A lambda fuel (List.finRange d) 0 (fun _ _ => 0)

/-! The R entry point `RHLasso` (lines 533-576). -/

/-- An R `NumericMatrix` as `RHLasso` sees it: declared dimensions plus the
flat column-major storage.  Indices at or beyond `nrow * ncol` address the
memory that happens to follow the buffer (reading there is undefined
behavior in C; the model makes such reads total so that the code's actual
control flow can be stated). -/
structure RMat where
  nrow : ℕ
  ncol : ℕ
  mem : ℕ → ℚ

/-- `RHLasso`: takes `k` and `d` from `W` alone, performs no dimension
validation whatsoever, and reads `G` as `k × k` and `A` as `k × d` from the
flat buffers.  The `Except` layer models the Rcpp error channel, which the
function never invokes. -/
def RHLasso (Gi Wi Ai : RMat) (l : ℚ) (fuel : ℕ) :
    Except Unit (Option ((Fin Wi.ncol → Vec Wi.nrow) × ℚ)) :=
  let k := Wi.nrow
  let d := Wi.ncol
  Except.ok (spawn_threads d
    (fun i j : Fin k => Gi.mem (i.val + j.val * k))
    (fun j i => Wi.mem (i.val + j.val * k))
    (fun j i => Ai.mem (i.val + j.val * k))
    l fuel)

/-- Embeds the allocation check of `spawn_threads` (lines 492-496): the body
of the `if (Hess == NULL || ...)` is empty — the error report
(`mexErrMsgTxt`) is commented out — so execution continues into the solve
regardless of whether every allocation succeeded.  The `then` branch is the
successful-allocation path, the `else` branch is the empty body of the
null check. -/
def spawnThreadsAllocCheck (allocationsOk : Bool) : Except Unit Unit :=
  if allocationsOk then Except.ok () else Except.ok ()

/-! Concrete instances used by witnesses and counterexamples. -/

/-- Concrete 1×1 Gram matrix `G = [1]`. -/
def cG : Mat 1 := fun _ _ => 1

/-- Concrete target `w = [1]` (its unconstrained minimizer is the corner `a = 1`). -/
def cw : Vec 1 := fun _ => 1

/-- Concrete in-box warm start `a0 = [1]`. -/
def ca : Vec 1 := fun _ => 1

/-- Concrete target `w = [2]`, making `a0 = [2]` a stationary warm start. -/
def cexW : Vec 1 := fun _ => 2

/-- Concrete out-of-box warm start `a0 = [2]`. -/
def cexA : Vec 1 := fun _ => 2

/-- A vector lies in the unit hypercube. -/
def InBox {k : ℕ} (x : Vec k) : Prop := ∀ i, 0 ≤ x i ∧ x i ≤ 1

/-- A concrete Hessian with huge curvature, under which the line search of
`cState` below rejects the full step and then aborts. -/
def cHess : Mat 1 := fun _ _ => 2 * 10 ^ 30

/-- A concrete linear term. -/
def cBeta : Vec 1 := fun _ => 0

/-- A concrete mid-solve state (iteration 1) whose projected step is tiny
(`d = [-1e-10]`, `gtd = -1e-10`), so the backtracking loop exhausts:
the first trial is rejected because the quadratic term dominates, and the
halved factor already drives `‖dx‖₁ · factor` below `optTol`. -/
def cState : SpgState 1 where
  x := fun _ => 1 / 10 ^ 10
  x_old := fun _ => 2 / 10 ^ 10
  g := fun _ => 1
  g_old := fun _ => 1 + 1 / 10 ^ 10
  f := 0
  fmin := 0
  ahat := fun _ => 0
  oldFvals := []
  iter := 1

/-- A matrix declared `1 × 1` whose surrounding memory happens to hold the
column-major `2 × 2` identity — so reads beyond its extent are visible. -/
def mismatchG : RMat :=
  { nrow := 1, ncol := 1, mem := fun n => if n = 0 then 1 else if n = 3 then 1 else 0 }

/-- A `2 × 1` target matrix `W = [1, 1]ᵗ`. -/
def mismatchW : RMat := { nrow := 2, ncol := 1, mem := fun _ => 1 }

/-- A `2 × 1` warm-start matrix `A0 = [1, 1]ᵗ`. -/
def mismatchA : RMat := { nrow := 2, ncol := 1, mem := fun _ => 1 }

/-! Basic facts about the non-monotone window maximum. -/

theorem le_foldl_max {l : List ℚ} {a b : ℚ} (h : a ≤ b) : a ≤ l.foldl max b := by
  induction l generalizing b with
  | nil => simpa using h
  | cons c l ih => exact ih (le_trans h (le_max_left b c))

theorem foldl_max_mem (l : List ℚ) (a : ℚ) : l.foldl max a ∈ a :: l := by
  induction l generalizing a with
  | nil => simp [List.foldl]
  | cons b l ih =>
    have h := ih (max a b)
    rcases max_choice a b with hm | hm <;>
      rw [hm] at h <;> simp only [List.foldl, hm] at * <;>
      rcases List.mem_cons.1 h with h' | h' <;> simp [h']

theorem le_foldl_max_of_mem {l : List ℚ} {a y : ℚ} (hy : y ∈ a :: l) :
    y ≤ l.foldl max a := by
  induction l generalizing a with
  | nil => simp only [List.mem_cons, List.not_mem_nil, or_false] at hy; simp [hy]
  | cons b l ih =>
    simp only [List.mem_cons] at hy
    rw [List.foldl_cons]
    rcases hy with rfl | rfl | hy
    · exact le_foldl_max (le_max_left y b)
    · exact le_foldl_max (le_max_right a y)
    · exact ih (List.mem_cons_of_mem _ hy)

/-! Totality of the backtracking loop at the internally computed fuel. -/

theorem OPT_TOL_pos : (0:ℚ) < OPT_TOL := by norm_num [OPT_TOL]

theorem lineSearchAux_isSome (f fref L Q N t : ℚ) :
    ∀ (fuel : ℕ) (factor : ℚ), N * (factor * (1 / 2) ^ fuel) < OPT_TOL →
      (lineSearchAux f fref L Q N t (fuel + 1) factor).isSome := by
  intro fuel
  induction fuel with
  | zero =>
    intro factor h
    rw [pow_zero, mul_one] at h
    simp only [lineSearchAux]
    split
    · simp
    · rw [if_pos (Or.inl (by nlinarith [OPT_TOL_pos]))]
      simp
  | succ n ih =>
    intro factor h
    simp only [lineSearchAux]
    split
    · simp
    · split
      · simp
      · apply ih
        calc N * (factor * (1 / 2) * (1 / 2) ^ n)
            = N * (factor * (1 / 2) ^ (n + 1)) := by ring
          _ < OPT_TOL := h

theorem lsFuelFor_sufficient (N : ℚ) :
    N * (1 * (1 / 2) ^ ((N.num.natAbs * 10 ^ 10).log2 + 2)) < OPT_TOL := by
  rcases le_or_lt N 0 with hN | hN
  · generalize (N.num.natAbs * 10 ^ 10).log2 = L
    have h1 : N * (1 * (1 / 2) ^ (L + 2)) ≤ 0 := by
      apply mul_nonpos_of_nonpos_of_nonneg hN
      positivity
    exact lt_of_le_of_lt h1 OPT_TOL_pos
  · have hnum : 0 < N.num := Rat.num_pos.2 hN
    have hne : N.num.natAbs * 10 ^ 10 ≠ 0 := by
      have h0 : N.num.natAbs ≠ 0 := by simpa [Int.natAbs_eq_zero] using hnum.ne'
      positivity
    have hlt : N.num.natAbs * 10 ^ 10 < 2 ^ ((N.num.natAbs * 10 ^ 10).log2 + 1) :=
      (Nat.log2_lt hne).1 (Nat.lt_succ_self _)
    generalize (N.num.natAbs * 10 ^ 10).log2 = L at hlt ⊢
    have hltQ : (N.num.natAbs : ℚ) * 10 ^ 10 < 2 ^ (L + 1) := by
      exact_mod_cast hlt
    have hNle : N ≤ (N.num.natAbs : ℚ) := by
      have hcast : ((N.num.natAbs : ℚ)) = ((N.num : ℚ)) := by
        rw [Int.cast_natAbs]
        exact_mod_cast abs_of_nonneg hnum.le
      rw [hcast]
      have hden : (1:ℚ) ≤ (N.den : ℚ) := by
        have hp := N.pos
        exact_mod_cast hp
      calc N = (N.num : ℚ) / (N.den : ℚ) := by exact_mod_cast (Rat.num_div_den N).symm
        _ ≤ (N.num : ℚ) := div_le_self (by exact_mod_cast hnum.le) hden
    have hmono : (2:ℚ) ^ (L + 1) ≤ 2 ^ (L + 2) := by
      apply pow_le_pow_right₀ (by norm_num)
      omega
    have key : N * 10 ^ 10 < 2 ^ (L + 2) := by
      calc N * 10 ^ 10 ≤ (N.num.natAbs : ℚ) * 10 ^ 10 := by
            apply mul_le_mul_of_nonneg_right hNle
            positivity
        _ < 2 ^ (L + 1) := hltQ
        _ ≤ 2 ^ (L + 2) := hmono
    rw [one_mul, div_pow, one_pow, mul_one_div, OPT_TOL]
    rw [div_lt_div_iff₀ (by positivity) (by positivity)]
    linarith [key]

theorem lineSearch_eq_some (f fref L Q N t : ℚ) :
    lineSearchAux f fref L Q N t (lsFuelFor N) 1 = some (lineSearch f fref L Q N t) := by
  have h : (lineSearchAux f fref L Q N t (lsFuelFor N) 1).isSome := by
    have hf : lsFuelFor N = ((N.num.natAbs * 10 ^ 10).log2 + 2) + 1 := by
      simp [lsFuelFor]
    rw [hf]
    exact lineSearchAux_isSome f fref L Q N t _ 1 (lsFuelFor_sufficient N)
  obtain ⟨r, hr⟩ := Option.isSome_iff_exists.1 h
  simp [lineSearch, hr]

/-- Step sizes produced by the backtracking loop stay in `[0, 1]` when the
initial trial step does. -/
theorem lineSearchAux_t_mem (f fref L Q N t : ℚ) (ht0 : 0 ≤ t) (ht1 : t ≤ 1) :
    ∀ (fuel : ℕ) (factor : ℚ), 0 ≤ factor → factor ≤ 1 →
      ∀ r, lineSearchAux f fref L Q N t fuel factor = some r →
        0 ≤ r.t ∧ r.t ≤ 1 := by
  intro fuel
  induction fuel with
  | zero => intro factor _ _ r hr; simp [lineSearchAux] at hr
  | succ n ih =>
    intro factor hf0 hf1 r hr
    simp only [lineSearchAux] at hr
    split at hr
    · cases hr
      constructor
      · exact mul_nonneg ht0 hf0
      · calc t * factor ≤ 1 * 1 := by
              apply mul_le_mul ht1 hf1 hf0
              norm_num
          _ = 1 := by norm_num
    · split at hr
      · cases hr
        norm_num
      · exact ih (factor * (1 / 2)) (by positivity) (by linarith) r hr

/-- The total `lineSearch` keeps the step size in `[0, 1]`. -/
theorem lineSearch_t_mem (f fref L Q N t : ℚ) (ht0 : 0 ≤ t) (ht1 : t ≤ 1) :
    0 ≤ (lineSearch f fref L Q N t).t ∧ (lineSearch f fref L Q N t).t ≤ 1 := by
  have h := lineSearch_eq_some f fref L Q N t
  exact lineSearchAux_t_mem f fref L Q N t ht0 ht1 (lsFuelFor N) 1
    (by norm_num) (by norm_num) _ h

/-- C2: in the non-monotone line search, a trial factor is accepted exactly
when `f + (0.5·quad + linear) < f_ref + 1e-3·linear`, with
`linear = factor·t·(g·d)` and `quad = (factor·t)²·(dᵗ·Hess·d)` computed
analytically (the recursion never consults `ObjValue`); on rejection the
factor is halved and the trial repeats (unless the step-too-small abort
fires); and the reference value is the maximum of the window of the last up
to `M = 10` recorded objective values. -/
theorem line_search_accept_characterization {k : ℕ} (Hess : Mat k) (g d : Vec k)
    (f fref N t factor : ℚ) (fuel : ℕ) :
    (lineSearchAux f fref (t * GetDirectDerivative g d)
        (ddot d (dgemv Hess d) * t * t) N t (fuel + 1) factor =
      if f + (1 / 2 * ((factor * t) ^ 2 * ddot d (dgemv Hess d))
            + factor * (t * GetDirectDerivative g d))
          < fref + SUFF_DESC * (factor * (t * GetDirectDerivative g d)) then
        some ⟨t * factor, N * factor,
          1 / 2 * ((factor * t) ^ 2 * ddot d (dgemv Hess d))
            + factor * (t * GetDirectDerivative g d)⟩
      else if N * (factor * (1 / 2)) < OPT_TOL ∨ t = 0 then some ⟨0, 0, 0⟩
      else lineSearchAux f fref (t * GetDirectDerivative g d)
        (ddot d (dgemv Hess d) * t * t) N t fuel (factor * (1 / 2))) ∧
    SUFF_DESC = 1 / 10 ^ 3 ∧ MEM_OLD_VALUES = 10 ∧
    (∀ s : SpgState k, spgFref s = maxOldFvals (updateOldFvals s.oldFvals s.f)) ∧
    (∀ (a : ℚ) (l : List ℚ), maxOldFvals (a :: l) ∈ a :: l ∧
      ∀ y ∈ a :: l, y ≤ maxOldFvals (a :: l)) := by
  refine ⟨?_, rfl, rfl, fun s => rfl,
    fun a l => ⟨foldl_max_mem l a, fun y hy => le_foldl_max_of_mem hy⟩⟩
  simp only [lineSearchAux]
  have e1 : ddot d (dgemv Hess d) * t * t * factor * factor
      = (factor * t) ^ 2 * ddot d (dgemv Hess d) := by ring
  have e2 : t * GetDirectDerivative g d * factor
      = factor * (t * GetDirectDerivative g d) := by ring
  rw [e1, e2]

/-- Witness for C2: the characterization applied at a concrete window. -/
theorem line_search_accept_characterization_witness :
    maxOldFvals (3 :: [5]) ∈ (3:ℚ) :: [5] ∧ (5:ℚ) ≤ maxOldFvals (3 :: [5]) := by
  have h := (line_search_accept_characterization (k := 1) (fun _ _ => 1) (fun _ => 1)
    (fun _ => 1) 0 0 1 1 1 0).2.2.2.2 3 [5]
  exact ⟨h.1, h.2 5 (by simp)⟩

theorem ele_fin_fin (a b : ℚ) : ele (.fin a) (.fin b) = decide (a ≤ b) := rfl

theorem elt_fin_fin (a b : ℚ) : elt (.fin a) (.fin b) = decide (a < b) := rfl

/-- C3 counterexample: after a zero displacement (`x = x_old`) the BB ratio is
`0/0`, which is NaN under IEEE semantics; NaN fails both safeguard
comparisons (`alpha <= 1e-10` and `alpha > 1e10` are false for NaN), so the
claim that a NaN is reset to 1 is false — at iteration 1 with
`x = x_old = [3]` the computed step length is NaN, not 1. -/
theorem alpha_nan_not_reset :
    computeAlphaE 1 (fun _ : Fin 1 => 3) (fun _ => 3) (fun _ => 2) (fun _ => 1) = .nan ∧
    EDouble.nan ≠ EDouble.fin 1 := by
  constructor
  · norm_num [computeAlphaE, GetAlphaE, ddot, Fin.sum_univ_one, ediv, safeguardAlphaE,
      ele, elt]
  · intro h
    exact EDouble.noConfusion h

/-- C3 amended: on the first iteration `α = 1`; afterwards `α` is the BB
ratio `(Δx·Δx)/(Δx·Δg)` passed through the safeguard, which resets `α` to 1
exactly when `α ≤ 1e-10` or `α > 1e10` under IEEE comparisons — this covers
every nonpositive value and both infinities — while a NaN (from `0/0`) fails
both comparisons and is NOT reset: it propagates. -/
theorem alpha_safeguard_characterization {k : ℕ} (q q' : ℚ)
    (hq : q ≤ 1 / 10 ^ 10 ∨ 10 ^ 10 < q)
    (hq' : ¬ (q' ≤ 1 / 10 ^ 10 ∨ 10 ^ 10 < q'))
    (x x_old g g_old : Vec k) (iter : ℕ) (hiter : iter ≠ 0) :
    safeguardAlphaE (.fin q) = .fin 1 ∧
    safeguardAlphaE (.fin q') = .fin q' ∧
    safeguardAlphaE .pinf = .fin 1 ∧
    safeguardAlphaE .ninf = .fin 1 ∧
    safeguardAlphaE .nan = .nan ∧
    computeAlphaE 0 x x_old g g_old = .fin 1 ∧
    computeAlphaE iter x x_old g g_old
      = safeguardAlphaE (GetAlphaE x x_old g g_old) := by
  refine ⟨?_, ?_, ?_, ?_, ?_, ?_, ?_⟩
  · rw [safeguardAlphaE, if_pos]
    rw [ele_fin_fin, elt_fin_fin]
    simp only [Bool.or_eq_true, decide_eq_true_eq]
    exact hq
  · rw [safeguardAlphaE, if_neg]
    rw [ele_fin_fin, elt_fin_fin]
    simp only [Bool.or_eq_true, decide_eq_true_eq]
    exact hq'
  · rfl
  · rfl
  · rfl
  · simp [computeAlphaE]
  · simp [computeAlphaE, hiter]

/-- Witness for the amended C3 at concrete step-length values. -/
theorem alpha_safeguard_witness :
    safeguardAlphaE (.fin 0) = .fin 1 ∧ safeguardAlphaE (.fin 5) = .fin 5 ∧
    safeguardAlphaE .nan = .nan ∧
    computeAlphaE 0 (fun _ : Fin 1 => 0) (fun _ => 0) (fun _ => 0) (fun _ => 0)
      = .fin 1 := by
  obtain ⟨h1, h2, _, _, h5, h6, _⟩ := alpha_safeguard_characterization (k := 1) 0 5
    (by norm_num) (by norm_num) (fun _ => 0) (fun _ => 0) (fun _ => 0) (fun _ => 0)
    1 one_ne_zero
  exact ⟨h1, h2, h5, h6⟩

/-! Preservation of the unit hypercube (claim C1). -/

theorem projHyperCube_mem {k : ℕ} (x : Vec k) (i : Fin k) :
    0 ≤ ProjHyperCube x i ∧ ProjHyperCube x i ≤ 1 := by
  unfold ProjHyperCube
  split
  · norm_num
  · split
    · norm_num
    · constructor <;> linarith [not_lt.1 (by assumption : ¬ x i < 0),
        not_lt.1 (by assumption : ¬ x i > 1)]

theorem spgT0_mem {k : ℕ} (s : SpgState k) : 0 ≤ spgT0 s ∧ spgT0 s ≤ 1 := by
  simp only [spgT0]
  split
  · have hN : 0 ≤ NormOne s.g := by
      unfold NormOne dasum
      positivity
    split
    · norm_num
    · constructor
      · exact div_nonneg zero_le_one hN
      · linarith [not_lt.1 (by assumption : ¬ 1 / NormOne s.g > 1)]
  · norm_num

theorem spgNext_x_mem {k : ℕ} (Hess : Mat k) (beta : Vec k) (s : SpgState k)
    (r : LSResult) (hx : InBox s.x) (ht : 0 ≤ r.t ∧ r.t ≤ 1) :
    InBox (spgNext Hess beta s r).x := by
  intro i
  have hp := projHyperCube_mem (fun j => s.x j - spgAlpha s * s.g j) i
  have hxi := hx i
  show 0 ≤ s.x i + r.t * spgD s i ∧ s.x i + r.t * spgD s i ≤ 1
  unfold spgD GetProjStep
  constructor <;> nlinarith [hp.1, hp.2, hxi.1, hxi.2, ht.1, ht.2]

theorem spgNext_ahat_cases {k : ℕ} (Hess : Mat k) (beta : Vec k) (s : SpgState k)
    (r : LSResult) :
    (spgNext Hess beta s r).ahat = (spgNext Hess beta s r).x ∨
      (spgNext Hess beta s r).ahat = s.ahat := by
  simp only [spgNext]
  split
  · left; rfl
  · right; rfl

theorem spgStep_state_cases {k : ℕ} (Hess : Mat k) (beta : Vec k) (s : SpgState k) :
    (spgStep Hess beta s).state = s ∨
      (spgStep Hess beta s).state = spgNext Hess beta s (spgLS Hess s) := by
  simp only [spgStep]
  split
  · left; rfl
  · split
    · right; rfl
    · right; rfl

theorem spgLS_t_mem {k : ℕ} (Hess : Mat k) (s : SpgState k) :
    0 ≤ (spgLS Hess s).t ∧ (spgLS Hess s).t ≤ 1 := by
  unfold spgLS
  exact lineSearch_t_mem _ _ _ _ _ _ (spgT0_mem s).1 (spgT0_mem s).2

theorem spgStep_box {k : ℕ} (Hess : Mat k) (beta : Vec k) (s : SpgState k)
    (hx : InBox s.x) (ha : InBox s.ahat) :
    InBox (spgStep Hess beta s).state.x ∧ InBox (spgStep Hess beta s).state.ahat := by
  rcases spgStep_state_cases Hess beta s with h | h <;> rw [h]
  · exact ⟨hx, ha⟩
  · have hx' := spgNext_x_mem Hess beta s (spgLS Hess s) hx (spgLS_t_mem Hess s)
    refine ⟨hx', ?_⟩
    rcases spgNext_ahat_cases Hess beta s (spgLS Hess s) with h' | h' <;> rw [h']
    · exact hx'
    · exact ha

theorem spgLoop_box {k : ℕ} (Hess : Mat k) (beta : Vec k) :
    ∀ (fuel : ℕ) (s sF : SpgState k), spgLoop Hess beta fuel s = some sF →
      InBox s.x → InBox s.ahat → InBox sF.x ∧ InBox sF.ahat := by
  intro fuel
  induction fuel with
  | zero => intro s sF h; simp [spgLoop] at h
  | succ n ih =>
    intro s sF h hx ha
    rw [spgLoop] at h
    cases hstep : spgStep Hess beta s with
    | done s' =>
      rw [hstep] at h
      cases h
      have := spgStep_box Hess beta s hx ha
      rwa [hstep] at this
    | cont s' =>
      rw [hstep] at h
      have hbox := spgStep_box Hess beta s hx ha
      rw [hstep] at hbox
      exact ih s' sF h hbox.1 hbox.2

theorem HCLasso_box {k : ℕ} (G : Mat k) (w a0 : Vec k) (lambda : ℚ) (fuel : ℕ)
    (ahat : Vec k) (fhat : ℚ) (ha0 : InBox a0)
    (h : HCLasso G w a0 lambda fuel = some (ahat, fhat)) : InBox ahat := by
  unfold HCLasso at h
  rw [Option.map_eq_some'] at h
  obtain ⟨sF, hsF, heq⟩ := h
  have hbox := spgLoop_box _ _ fuel (spgInit G w a0 lambda) sF hsF ha0 ha0
  have hfst : sF.ahat = ahat := congrArg Prod.fst heq
  rw [hfst] at hbox
  exact hbox.2

theorem spawnLoop_box {k d : ℕ} (G : Mat k) (W A : Fin d → Vec k) (lambda : ℚ)
    (fuel : ℕ) (hA : ∀ j, InBox (A j)) :
    ∀ (cols : List (Fin d)) (loss : ℚ) (Anew : Fin d → Vec k)
      (res : (Fin d → Vec k) × ℚ),
      spawnLoop G W A lambda fuel cols loss Anew = some res →
      (∀ j, InBox (Anew j)) → ∀ j, InBox (res.1 j) := by
  intro cols
  induction cols with
  | nil =>
    intro loss Anew res h hAnew
    simp only [spawnLoop] at h
    cases h
    exact hAnew
  | cons j0 rest ih =>
    intro loss Anew res h hAnew
    simp only [spawnLoop] at h
    cases hH : HCLasso G (W j0) (A j0) lambda fuel with
    | none => rw [hH] at h; cases h
    | some p =>
      rw [hH] at h
      refine ih _ _ res h ?_
      intro j
      rcases eq_or_ne j j0 with rfl | hne
      · rw [Function.update_same]
        exact HCLasso_box G (W j) (A j) lambda fuel p.1 p.2 (hA j) (by rw [hH])
      · rw [Function.update_noteq hne]
        exact hAnew j

/-- C1 counterexample: the claim as stated is false.  With `k = d = 1`,
`G = [1]`, `w = [2]`, `λ = 0` and the out-of-box warm start `A0 = [2]`, the
batch call returns the coordinate `2 ∉ [0,1]`: the warm start is copied into
the best-so-far iterate without projection, and the solve terminates at once
because the directional derivative is `0 > -optTol`. -/
theorem anew_escapes_unit_box :
    (spawn_threads 1 cG (fun _ => cexW) (fun _ => cexA) 0 1).map (fun r => r.1 0 0)
      = some 2 ∧ ¬ ((2:ℚ) ≤ 1) ∧ cexA 0 = 2 := by
  refine ⟨?_, by norm_num, rfl⟩
  norm_num [spawn_threads, List.finRange, spawnLoop, HCLasso, spgLoop, spgStep, spgGtd,
    spgD, spgAlpha, GetProjStep, ProjHyperCube, GetDirectDerivative, ddot, spgInit,
    GetGrad, dgemv, SetInputHess, SetInputBeta, ObjValue, cG, cexW, cexA, OPT_TOL]

/-- C1 amended: every coordinate of every returned column of `Anew` lies in
`[0,1]` provided the corresponding column of the warm start `A0` lies in
`[0,1]` (an out-of-box warm start can be returned unchanged, as the
counterexample above shows).  The preconditions `k ≥ 1`, `d ≥ 0` are
implicit in the types. -/
theorem anew_in_unit_box {k d : ℕ} (G : Mat k) (W A : Fin d → Vec k) (lambda : ℚ)
    (fuel : ℕ) (Anew : Fin d → Vec k) (loss : ℚ)
    (hA : ∀ j i, 0 ≤ A j i ∧ A j i ≤ 1)
    (h : spawn_threads d G W A lambda fuel = some (Anew, loss)) :
    ∀ j i, 0 ≤ Anew j i ∧ Anew j i ≤ 1 := by
  intro j
  exact spawnLoop_box G W A lambda fuel (fun j => hA j) (List.finRange d) 0
    (fun _ _ => 0) (Anew, loss) h (fun _ _ => by norm_num) j

/-- Witness for the amended C1 on a concrete in-box batch. -/
theorem anew_in_unit_box_witness :
    0 ≤ (Function.update (fun _ _ => (0:ℚ)) (0 : Fin 1) (fun _ => 1) :
        Fin 1 → Vec 1) 0 0 ∧
      (Function.update (fun _ _ => (0:ℚ)) (0 : Fin 1) (fun _ => 1) :
        Fin 1 → Vec 1) 0 0 ≤ 1 := by
  have heval : spawn_threads 1 cG (fun _ => cw) (fun _ => ca) 0 1
      = some (Function.update (fun _ _ => 0) 0 (fun _ => 1), -1) := by
    norm_num [spawn_threads, List.finRange, spawnLoop, HCLasso, spgLoop, spgStep, spgGtd,
      spgD, spgAlpha, GetProjStep, ProjHyperCube, GetDirectDerivative, ddot, spgInit,
      GetGrad, dgemv, SetInputHess, SetInputBeta, ObjValue, cG, cw, ca, OPT_TOL]
    rfl
  exact anew_in_unit_box cG (fun _ => cw) (fun _ => ca) 0 1 _ _
    (fun j i => by norm_num [ca]) heval 0 0

/-! Monotonicity of the best-so-far value (claim C4). -/

theorem spgNext_fmin_le {k : ℕ} (Hess : Mat k) (beta : Vec k) (s : SpgState k)
    (r : LSResult) : (spgNext Hess beta s r).fmin ≤ s.fmin := by
  simp only [spgNext]
  split
  · next h => exact le_of_lt h
  · next => exact le_refl _

theorem spgStep_fmin_le {k : ℕ} (Hess : Mat k) (beta : Vec k) (s : SpgState k) :
    (spgStep Hess beta s).state.fmin ≤ s.fmin := by
  rcases spgStep_state_cases Hess beta s with h | h
  · rw [h]
  · rw [h]
    exact spgNext_fmin_le Hess beta s _

theorem spgLoop_fmin_le {k : ℕ} (Hess : Mat k) (beta : Vec k) :
    ∀ (fuel : ℕ) (s sF : SpgState k), spgLoop Hess beta fuel s = some sF →
      sF.fmin ≤ s.fmin := by
  intro fuel
  induction fuel with
  | zero => intro s sF h; simp [spgLoop] at h
  | succ n ih =>
    intro s sF h
    rw [spgLoop] at h
    cases hstep : spgStep Hess beta s with
    | done s' =>
      rw [hstep] at h
      cases h
      have := spgStep_fmin_le Hess beta s
      rwa [hstep] at this
    | cont s' =>
      rw [hstep] at h
      have h1 := spgStep_fmin_le Hess beta s
      rw [hstep] at h1
      exact le_trans (ih s' sF h) h1

/-- C4: within one solve the best-so-far objective value `fmin` (the cell
`fhat[0]`) is non-increasing: each iteration either leaves `(fmin, ahat)`
unchanged, or updates them to the freshly computed `(f, x)` — and it does the
latter exactly when the new objective value is strictly below the current
`fmin`; consequently the value after any number of iterations is at most the
starting value. -/
theorem fmin_nonincreasing {k : ℕ} (Hess : Mat k) (beta : Vec k) (s : SpgState k) :
    ((spgStep Hess beta s).state.fmin ≤ s.fmin ∧
      (((spgStep Hess beta s).state.fmin = s.fmin ∧
        (spgStep Hess beta s).state.ahat = s.ahat) ∨
       ((spgStep Hess beta s).state.f < s.fmin ∧
        (spgStep Hess beta s).state.fmin = (spgStep Hess beta s).state.f ∧
        (spgStep Hess beta s).state.ahat = (spgStep Hess beta s).state.x))) ∧
    (∀ (fuel : ℕ) (sF : SpgState k), spgLoop Hess beta fuel s = some sF →
      sF.fmin ≤ s.fmin) := by
  refine ⟨⟨spgStep_fmin_le Hess beta s, ?_⟩,
    fun fuel sF h => spgLoop_fmin_le Hess beta fuel s sF h⟩
  rcases spgStep_state_cases Hess beta s with h | h <;> rw [h]
  · left; exact ⟨rfl, rfl⟩
  · simp only [spgNext]
    split
    · next hlt => right; exact ⟨hlt, rfl, rfl⟩
    · next => left; exact ⟨rfl, rfl⟩

/-- Witness for C4 on a concrete one-iteration solve. -/
theorem fmin_nonincreasing_witness :
    (spgStep (SetInputHess cG) (SetInputBeta cw 0) (spgInit cG cw ca 0)).state.fmin
      ≤ (spgInit cG cw ca 0).fmin ∧
    (spgInit cG cw ca 0).fmin ≤ (spgInit cG cw ca 0).fmin := by
  have h := fmin_nonincreasing (SetInputHess cG) (SetInputBeta cw 0) (spgInit cG cw ca 0)
  refine ⟨h.1.1, h.2 1 (spgInit cG cw ca 0) ?_⟩
  norm_num [spgLoop, spgStep, spgGtd, spgD, spgAlpha, GetProjStep, ProjHyperCube,
    GetDirectDerivative, ddot, spgInit, GetGrad, dgemv, SetInputHess, SetInputBeta,
    ObjValue, cG, cw, ca, OPT_TOL]

/-! Termination (claim C5). -/

theorem spgStep_cont_iter {k : ℕ} {Hess : Mat k} {beta : Vec k} {s s' : SpgState k}
    (h : spgStep Hess beta s = .cont s') : s'.iter = s.iter + 1 ∧ s'.iter ≤ 500 := by
  simp only [spgStep] at h
  split at h
  · exact StepResult.noConfusion h
  · split at h
    · exact StepResult.noConfusion h
    · next hdone =>
      cases h
      simp only [spgDone, Bool.or_eq_true, decide_eq_true_eq, not_or] at hdone
      have h4 := hdone.2
      have hiter : (spgNext Hess beta s (spgLS Hess s)).iter = s.iter + 1 := rfl
      rw [hiter] at h4
      exact ⟨rfl, by omega⟩

theorem spgLoop_isSome {k : ℕ} (Hess : Mat k) (beta : Vec k) :
    ∀ (fuel : ℕ) (s : SpgState k), 501 - s.iter < fuel →
      (spgLoop Hess beta fuel s).isSome := by
  intro fuel
  induction fuel with
  | zero => intro s h; omega
  | succ n ih =>
    intro s h
    rw [spgLoop]
    cases hstep : spgStep Hess beta s with
    | done s' => simp
    | cont s' =>
      simp only []
      obtain ⟨h1, h2⟩ := spgStep_cont_iter hstep
      exact ih s' (by omega)

theorem HCLasso_isSome {k : ℕ} (G : Mat k) (w a0 : Vec k) (lambda : ℚ) :
    (HCLasso G w a0 lambda 502).isSome := by
  unfold HCLasso
  rw [Option.isSome_map']
  apply spgLoop_isSome
  have h0 : (spgInit G w a0 lambda).iter = 0 := rfl
  omega

theorem spawnLoop_isSome {k d : ℕ} (G : Mat k) (W A : Fin d → Vec k) (lambda : ℚ) :
    ∀ (cols : List (Fin d)) (loss : ℚ) (Anew : Fin d → Vec k),
      (spawnLoop G W A lambda 502 cols loss Anew).isSome := by
  intro cols
  induction cols with
  | nil => intro loss Anew; simp [spawnLoop]
  | cons j rest ih =>
    intro loss Anew
    simp only [spawnLoop]
    cases hH : HCLasso G (W j) (A j) lambda 502 with
    | none =>
      have := HCLasso_isSome G (W j) (A j) lambda
      rw [hH] at this
      simp at this
    | some p => exact ih _ _

/-- C5: every subproblem solve on finite inputs terminates.  The inner
backtracking loop always yields a result at the internally computed fuel
(factor is halved until acceptance or until `‖d‖₁·t·factor` drops below
`optTol`), and the outer SPG loop always breaks within 502 passes because the
iteration counter is capped at 500, so `HCLasso` and the whole batch call
`spawn_threads` run to completion with outer fuel 502. -/
theorem solver_terminates :
    (∀ (f fref L Q N t : ℚ),
      lineSearchAux f fref L Q N t (lsFuelFor N) 1 = some (lineSearch f fref L Q N t)) ∧
    (∀ (k : ℕ) (G : Mat k) (w a0 : Vec k) (lambda : ℚ),
      (HCLasso G w a0 lambda 502).isSome) ∧
    (∀ (k d : ℕ) (G : Mat k) (W A : Fin d → Vec k) (lambda : ℚ),
      (spawn_threads d G W A lambda 502).isSome) := by
  refine ⟨lineSearch_eq_some, fun k => HCLasso_isSome, ?_⟩
  intro k d G W A lambda
  unfold spawn_threads
  exact spawnLoop_isSome G W A lambda (List.finRange d) 0 (fun _ _ => 0)

/-! Line-search exhaustion (claim C6). -/

/-- One symbolic unfolding of the backtracking loop: when the first trial is
rejected and the step-too-small guard fires at the halved factor, the result
is the zero-step triple. -/
theorem lineSearch_abort_at_one (f fref L Q N t : ℚ)
    (hacc : ¬ (f + (1 / 2 * (Q * 1 * 1) + L * 1) < fref + SUFF_DESC * (L * 1)))
    (hab : N * (1 * (1 / 2)) < OPT_TOL ∨ t = 0) :
    lineSearch f fref L Q N t = ⟨0, 0, 0⟩ := by
  unfold lineSearch lsFuelFor
  generalize (N.num.natAbs * 10 ^ 10).log2 = M
  show (lineSearchAux f fref L Q N t ((M + 2) + 1) 1).getD ⟨0, 0, 0⟩ = ⟨0, 0, 0⟩
  simp only [lineSearchAux]
  rw [if_neg hacc, if_pos hab]
  rfl

/-- One symbolic unfolding of the backtracking loop: an accepted first trial. -/
theorem lineSearch_accept_at_one (f fref L Q N t : ℚ)
    (hacc : f + (1 / 2 * (Q * 1 * 1) + L * 1) < fref + SUFF_DESC * (L * 1)) :
    lineSearch f fref L Q N t = ⟨t * 1, N * 1, 1 / 2 * (Q * 1 * 1) + L * 1⟩ := by
  unfold lineSearch lsFuelFor
  generalize (N.num.natAbs * 10 ^ 10).log2 = M
  show (lineSearchAux f fref L Q N t ((M + 2) + 1) 1).getD ⟨0, 0, 0⟩ = _
  simp only [lineSearchAux]
  rw [if_pos hacc]
  rfl

set_option maxRecDepth 4000 in
theorem cState_hls : spgLS cHess cState = ⟨0, 0, 0⟩ := by
  have hd : spgD cState = fun _ => -(1 / 10 ^ 10) := by
    funext i
    norm_num [spgD, spgAlpha, GetAlpha, safeguardAlphaQ, GetProjStep,
      ProjHyperCube, ddot, cState]
  have hgtd : spgGtd cState = -(1 / 10 ^ 10) := by
    rw [spgGtd, hd]
    norm_num [GetDirectDerivative, ddot, cState]
  have ht0 : spgT0 cState = 1 := by norm_num [spgT0, cState]
  have hfref : spgFref cState = 0 := by
    norm_num [spgFref, cState, updateOldFvals, maxOldFvals, MEM_OLD_VALUES]
  have hf : cState.f = 0 := rfl
  rw [spgLS, hd, ht0, hfref, hgtd, hf]
  have hQ : ddot (fun _ => -(1 / 10 ^ 10)) (dgemv cHess (fun _ => -(1 / 10 ^ 10)))
      = 2 * 10 ^ 10 := by
    norm_num [ddot, dgemv, cHess]
  have hN : NormOne (fun _ : Fin 1 => -(1 / 10 ^ 10)) = 1 / 10 ^ 10 := by
    norm_num [NormOne, dasum]
  rw [hQ, hN]
  apply lineSearch_abort_at_one
  · norm_num [SUFF_DESC]
  · left
    norm_num [OPT_TOL]

set_option maxRecDepth 4000 in
theorem cState_hgtd : ¬ (spgGtd cState > -OPT_TOL) := by
  have hd : spgD cState = fun _ => -(1 / 10 ^ 10) := by
    funext i
    norm_num [spgD, spgAlpha, GetAlpha, safeguardAlphaQ, GetProjStep,
      ProjHyperCube, ddot, cState]
  have hgtd : spgGtd cState = -(1 / 10 ^ 10) := by
    rw [spgGtd, hd]
    norm_num [GetDirectDerivative, ddot, cState]
  rw [hgtd, OPT_TOL]
  exact lt_irrefl _

/-- C6: when the backtracking search exhausts — the abort guard
`‖d‖₁·t·factor < optTol` fires before any trial is accepted, producing the
zero-step result `t = 0`, `‖dx‖₁ = 0`, `Δf = 0` — the iterate and the
objective value are unchanged by the subsequent `TakeStep`, the step-size
stopping condition `norm1_dx < optTol` holds at the convergence check of the
same pass, and the pass terminates the solve (`StepResult` has no error
constructor: exhaustion is not surfaced as an error). -/
theorem line_search_exhaustion_zero_step {k : ℕ} (Hess : Mat k) (beta : Vec k)
    (s : SpgState k)
    (hgtd : ¬ (spgGtd s > -OPT_TOL))
    (hls : spgLS Hess s = ⟨0, 0, 0⟩) :
    (spgStep Hess beta s).isDone = true ∧
    (spgStep Hess beta s).state.x = s.x ∧
    (spgStep Hess beta s).state.f = s.f ∧
    (LSResult.norm1dx ⟨0, 0, 0⟩ < OPT_TOL) ∧
    (∀ (f fref L Q N t factor : ℚ) (fuel : ℕ),
      ¬ (f + (1 / 2 * (Q * factor * factor) + L * factor)
          < fref + SUFF_DESC * (L * factor)) →
      (N * (factor * (1 / 2)) < OPT_TOL ∨ t = 0) →
      lineSearchAux f fref L Q N t (fuel + 1) factor = some ⟨0, 0, 0⟩) := by
  have hstep : spgStep Hess beta s = .done (spgNext Hess beta s ⟨0, 0, 0⟩) := by
    simp only [spgStep, hls]
    rw [if_neg hgtd, if_pos]
    simp [spgDone, OPT_TOL_pos]
  refine ⟨by rw [hstep]; rfl, ?_, ?_, by simpa using OPT_TOL_pos, ?_⟩
  · rw [hstep]
    show (fun i => s.x i + (LSResult.t ⟨0, 0, 0⟩) * spgD s i) = s.x
    funext i
    show s.x i + 0 * spgD s i = s.x i
    ring
  · rw [hstep]
    show s.f + (LSResult.redf ⟨0, 0, 0⟩) = s.f
    show s.f + 0 = s.f
    ring
  · intro f fref L Q N t factor fuel hacc habort
    simp only [lineSearchAux]
    rw [if_neg hacc, if_pos habort]

/-- Witness for C6 on the concrete exhausting state `cState`. -/
theorem line_search_exhaustion_witness :
    (spgStep cHess cBeta cState).isDone = true ∧
    (spgStep cHess cBeta cState).state.x = cState.x := by
  have h := line_search_exhaustion_zero_step cHess cBeta cState cState_hgtd cState_hls
  exact ⟨h.1, h.2.1⟩

/-! Batch output (claims C7 and C10). -/

theorem spawnLoop_spec {k d : ℕ} (G : Mat k) (W A : Fin d → Vec k) (lambda : ℚ)
    (fuel : ℕ) (ah : Fin d → Vec k) (fh : Fin d → ℚ)
    (hH : ∀ j, HCLasso G (W j) (A j) lambda fuel = some (ah j, fh j)) :
    ∀ (cols : List (Fin d)) (loss : ℚ) (Anew : Fin d → Vec k),
      spawnLoop G W A lambda fuel cols loss Anew
        = some (fun j => if j ∈ cols then ah j else Anew j,
            loss + (cols.map fh).sum) := by
  intro cols
  induction cols with
  | nil =>
    intro loss Anew
    simp only [spawnLoop, List.map_nil, List.sum_nil, add_zero]
    have he : (fun j => if j ∈ ([] : List (Fin d)) then ah j else Anew j) = Anew :=
      funext fun j => if_neg (List.not_mem_nil j)
    rw [he]
  | cons j0 rest ih =>
    intro loss Anew
    simp only [spawnLoop]
    rw [hH j0]
    show spawnLoop G W A lambda fuel rest (loss + fh j0)
        (Function.update Anew j0 (ah j0)) = _
    rw [ih (loss + fh j0) (Function.update Anew j0 (ah j0))]
    have he : (fun j => if j ∈ rest then ah j else Function.update Anew j0 (ah j0) j)
        = fun j => if j ∈ j0 :: rest then ah j else Anew j := by
      funext j
      by_cases h1 : j ∈ rest
      · rw [if_pos h1, if_pos (List.mem_cons_of_mem _ h1)]
      · rcases eq_or_ne j j0 with rfl | hne
        · rw [if_neg h1, Function.update_same, if_pos (List.mem_cons_self _ _)]
        · rw [if_neg h1, Function.update_noteq hne,
            if_neg (by simp [List.mem_cons, h1, hne])]
    rw [he, List.map_cons, List.sum_cons, add_assoc]

/-- C7: the batch call returns, in column `j` of `Anew`, exactly the
best-so-far iterate `ahat` of subproblem `j`, and as `Loss` the sum over all
columns `j = 0..d-1` of the per-subproblem best objective values `fhat_j`. -/
theorem batch_output_characterization {k d : ℕ} (G : Mat k) (W A : Fin d → Vec k)
    (lambda : ℚ) (fuel : ℕ) (ah : Fin d → Vec k) (fh : Fin d → ℚ)
    (hH : ∀ j, HCLasso G (W j) (A j) lambda fuel = some (ah j, fh j)) :
    spawn_threads d G W A lambda fuel = some (ah, ∑ j, fh j) := by
  unfold spawn_threads
  rw [spawnLoop_spec G W A lambda fuel ah fh hH]
  have he : (fun j => if j ∈ List.finRange d then ah j
      else (fun _ _ => (0:ℚ)) j) = ah :=
    funext fun j => if_pos (List.mem_finRange j)
  have hs : (0:ℚ) + ((List.finRange d).map fh).sum = ∑ j, fh j := by
    rw [zero_add, Fin.sum_univ_def]
  rw [he, hs]

/-- Witness for C7 on a concrete one-column batch. -/
theorem batch_output_witness :
    spawn_threads 1 cG (fun _ => cw) (fun _ => ca) 0 1 = some (fun _ _ => 1, -1) := by
  have hH : ∀ j : Fin 1, HCLasso cG ((fun _ => cw) j) ((fun _ => ca) j) 0 1
      = some ((fun _ (_ : Fin 1) => (1:ℚ)) j, (fun _ => (-1:ℚ)) j) := by
    intro j
    norm_num [HCLasso, spgLoop, spgStep, spgGtd, spgD, spgAlpha, GetProjStep,
      ProjHyperCube, GetDirectDerivative, ddot, spgInit, GetGrad, dgemv,
      SetInputHess, SetInputBeta, ObjValue, cG, cw, ca, OPT_TOL]
    try rfl
  have h := batch_output_characterization cG (fun _ => cw) (fun _ => ca) 0 1
    (fun _ _ => 1) (fun _ => -1) hH
  simpa using h

/-- C10: with `d = 0` the batch loop runs no iterations at all (outer fuel 0
already suffices, and the result is the same for every fuel), and returns
the zero-initialized `k × 0` matrix — of which there is only one — together
with `totalLoss = 0`; the empty batch is not an error. -/
theorem empty_batch {k : ℕ} (G : Mat k) (W A : Fin 0 → Vec k) (lambda : ℚ) :
    (∀ fuel, spawn_threads 0 G W A lambda fuel = some (fun _ _ => 0, 0)) ∧
    (∀ B C : Fin 0 → Vec k, B = C) := by
  constructor
  · intro fuel
    simp [spawn_threads, List.finRange_zero, spawnLoop]
  · intro B C
    funext j
    exact absurd j.2 (by omega)

/-! Error handling at the batch entry (claims C8 and C9). -/

/-- C8 (divergence): the allocation check of `spawn_threads` reports nothing.
Whether or not every allocation succeeded, the embedded check returns
success and execution falls through into the solves — the error report in
the null-check body is commented out in the source. -/
theorem alloc_failure_not_reported :
    spawnThreadsAllocCheck false = Except.ok () ∧
    spawnThreadsAllocCheck true = Except.ok () := ⟨rfl, rfl⟩

/-- C9 counterexample: a batch call whose `G` is declared `1 × 1` while `W`
is `2 × 1` is not rejected: `RHLasso` takes `k = 2` from `W`, reads `G` out
of its declared extent (undefined behavior in C, modelled by the ambient
`mem`), runs the solve to completion and returns a result — no error is
reported before or during the solve. -/
theorem dimension_mismatch_not_rejected :
    mismatchG.nrow = 1 ∧ mismatchG.ncol = 1 ∧ mismatchW.nrow = 2 ∧
    RHLasso mismatchG mismatchW mismatchA 0 1
      = Except.ok (some (fun _ _ => 1, -2)) := by
  refine ⟨rfl, rfl, rfl, ?_⟩
  show Except.ok (spawn_threads 1
      (fun i j : Fin 2 => mismatchG.mem (i.val + j.val * 2))
      (fun j i => mismatchW.mem (i.val + j.val * 2))
      (fun j i => mismatchA.mem (i.val + j.val * 2)) 0 1)
    = Except.ok (some (fun _ _ => 1, -2))
  norm_num [mismatchG, mismatchW, mismatchA, spawn_threads, List.finRange,
    spawnLoop, HCLasso, spgLoop, spgStep, spgGtd, spgD, spgAlpha, GetProjStep,
    ProjHyperCube, GetDirectDerivative, ddot, Fin.sum_univ_two, spgInit, GetGrad,
    dgemv, SetInputHess, SetInputBeta, ObjValue, OPT_TOL]
  funext j i
  have hj : j = 0 := Subsingleton.elim j 0
  rw [hj, Function.update_same]

/-- C9 amended: `RHLasso` performs no dimension validation at all — its
result is invariant under arbitrary changes to the declared dimensions of
`G` and `A0`; only `W`'s dimensions and the flat buffer contents matter. -/
theorem rhlasso_ignores_declared_dims (Gi Wi Ai : RMat) (l : ℚ) (fuel : ℕ)
    (gr gc ar ac : ℕ) :
    RHLasso { Gi with nrow := gr, ncol := gc } Wi
      { Ai with nrow := ar, ncol := ac } l fuel = RHLasso Gi Wi Ai l fuel := rfl

end MeDeCom
